import Mathlib

/-!
Shallow embedding of the bounded forensic ring-buffer logger from
`src/ring_buffer.rs` (crate `palisade-error`), together with theorems
settling the specification claims about it.

Strings are modelled as `List Char`; the byte length of a string is the
sum of the UTF-8 encoded sizes of its characters, matching Rust's
`str::len`.  In this model every string value is automatically valid
UTF-8 (a list of characters always has a well-formed encoding), so the
spec's "no split multi-byte character" requirement is expressed by the
fact that the functions below return `List Char` values at all, plus the
byte-length bounds proved about them.
-/
set_option maxHeartbeats 1000000

set_option maxRecDepth 100000

/-- UTF-8 encoded size in bytes of a single character, as in Rust's
`char::len_utf8`. -/
def charSize (c : Char) : Nat :=
  if c.val < 128 then 1
  else if c.val < 2048 then 2
  else if c.val < 65536 then 3
  else 4

/-- Byte length of a string modelled as a character list (Rust `str::len`). -/
def utf8Len : List Char → Nat
  | [] => 0
  | c :: cs => charSize c + utf8Len cs

/-- The truncation indicator literal used by `truncate_to_bytes`
(`"...[TRUNC]"`, 10 ASCII bytes). -/
def indicator : List Char := "...[TRUNC]".toList

/-- The placeholder stored as the source identifier when the entry byte
budget is already exhausted (`"[TRUNCATED]"`). -/
def truncMarker : List Char := "[TRUNCATED]".toList

/-- The backward walk of `truncate_to_bytes` to the nearest character
boundary at or below the byte budget, rendered at character level: the
maximal prefix of `s` whose UTF-8 byte length fits in `budget`.  The byte
boundaries of `s` are exactly the byte lengths of its character-list
prefixes, so this greedy prefix is the prefix ending at the largest
boundary `≤ budget`, which is what the Rust loop
`while idx > 0 && !s.is_char_boundary(idx) { idx -= 1 }` selects. -/
def takeChars : List Char → Nat → List Char
  | [], _ => []
  | c :: cs, budget =>
    if charSize c ≤ budget then c :: takeChars cs (budget - charSize c) else []

/-- Embedding of `truncate_to_bytes` from `src/ring_buffer.rs`:
truncate a string to at most `max_bytes` UTF-8 bytes, appending the
indicator when content was dropped.  `indicator.take max_bytes` models
the ASCII byte slice `&indicator[..max_bytes]` (one byte per character
there). -/
def truncate_to_bytes (s : List Char) (max_bytes : Nat) : List Char :=
  if max_bytes = 0 then []
  else if utf8Len s ≤ max_bytes then s
  else if max_bytes ≤ utf8Len indicator then indicator.take max_bytes
  else
    let content := takeChars s (max_bytes - utf8Len indicator)
    if content = [] then indicator
    else content ++ indicator

/-! ## Data model -/
/-- Embedding of `ForensicEntry` from `src/ring_buffer.rs`.  `Arc<str>`
fields become plain strings (`List Char`); the reference counting is a
sharing optimisation with no observable content. -/
structure ForensicEntry where
  timestamp : Nat
  code : List Char
  operation : List Char
  details : List Char
  source_ip : List Char
  metadata : List (List Char × List Char)
  size_bytes : Nat
  retryable : Bool
deriving DecidableEq, Repr

/-- The read-only view of the internal error log that `create_entry`
consumes via `err.with_internal_log` (`ErrorLog` accessors in
`src/logging.rs`): code display string, operation, details, ordered
metadata pairs, and the retryable flag. -/
structure InternalLog where
  code : List Char
  operation : List Char
  details : List Char
  metadata : List (List Char × List Char)
  retryable : Bool
deriving DecidableEq, Repr

/-- The metadata collection loop of `create_entry`
(`for (k, v) in log.metadata() { ... }`): returns the collected pairs,
the total bytes added to `size`, and the final value of `remaining`.
Each `break` returns the accumulators unchanged; `saturating_sub`
is `Nat` subtraction. -/
def collectMeta :
    List (List Char × List Char) → Nat →
      List (List Char × List Char) × Nat × Nat
  | [], remaining => ([], 0, remaining)
  | (k, v) :: rest, remaining =>
    if remaining = 0 then ([], 0, remaining)
    else if utf8Len k ≥ remaining then ([], 0, remaining)
    else
      let value_cap := min (remaining - utf8Len k) 128
      if value_cap = 0 then ([], 0, remaining)
      else
        let value := truncate_to_bytes v value_cap
        let used := utf8Len k + utf8Len value
        if used > remaining then ([], 0, remaining)
        else
          let r := collectMeta rest (remaining - used)
          ((k, value) :: r.1, used + r.2.1, r.2.2)

/-- Embedding of `RingBufferLogger::create_entry`, parameterised by the
logger's `max_entry_bytes` (the only part of `self` the method reads)
and by the clock reading: `clock = some t` models
`SystemTime::now().duration_since(UNIX_EPOCH) = Ok(d)` with
`d.as_secs() = t`, and `clock = none` models a clock before the Unix
epoch (`duration_since` returned `Err`), which `map_or(0, ..)` turns
into timestamp `0`. -/
def createEntryCore (max_entry_bytes : Nat) (log : InternalLog)
    (source_ip : List Char) (clock : Option Nat) : ForensicEntry :=
  let remaining0 := max_entry_bytes
  let op_cap := min remaining0 256
  let operation := truncate_to_bytes log.operation op_cap
  let op_len := utf8Len operation
  let size1 := op_len
  let remaining1 := remaining0 - op_len
  let details_cap := min remaining1 512
  let details := truncate_to_bytes log.details details_cap
  let details_len := utf8Len details
  let size2 := size1 + details_len
  let remaining2 := remaining1 - details_len
  let mc := collectMeta log.metadata remaining2
  let size3 := size2 + mc.2.1
  let remaining3 := mc.2.2
  let sip :=
    if remaining3 = 0 then (truncMarker, size3)
    else
      let s := truncate_to_bytes source_ip (min remaining3 128)
      (s, size3 + utf8Len s)
  { timestamp := clock.getD 0
    code := log.code
    operation := operation
    details := details
    source_ip := sip.1
    metadata := mc.1
    size_bytes := sip.2
    retryable := log.retryable }

/-! ## Circular storage -/
/-- Embedding of the private `RingBuffer` struct: a fixed array of
optional slots plus write position `tail`, read position `head`, and a
length counter. -/
structure RingBuffer where
  entries : List (Option ForensicEntry)
  tail : Nat
  head : Nat
  len : Nat
deriving DecidableEq, Repr

/-- `RingBuffer::new`: `capacity` empty slots, indices zeroed. -/
def RingBuffer.new (capacity : Nat) : RingBuffer :=
  { entries := List.replicate capacity none
    tail := 0
    head := 0
    len := 0 }

/-- `RingBuffer::push`: overwrite the tail slot (returning its previous
occupant, as `Option::replace` does), advance `tail` modulo capacity,
and either grow `len` or advance `head` when already full. -/
def RingBuffer.push (b : RingBuffer) (e : ForensicEntry) :
    RingBuffer × Option ForensicEntry :=
  let cap := b.entries.length
  let evicted := b.entries.getD b.tail none
  let entries := b.entries.set b.tail (some e)
  let tail := (b.tail + 1) % cap
  if b.len < cap then
    ({ entries := entries, tail := tail, head := b.head, len := b.len + 1 },
      evicted)
  else
    ({ entries := entries, tail := tail, head := (b.head + 1) % cap,
       len := b.len }, evicted)

/-- `RingBuffer::iter`: the stored entries in insertion order
(oldest → newest); slot `i` of the logical view lives at physical index
`(head + i) % capacity`, empty slots are skipped by `filter_map`. -/
def RingBuffer.iter (b : RingBuffer) : List ForensicEntry :=
  (List.range b.len).filterMap
    (fun i => b.entries.getD ((b.head + i) % b.entries.length) none)

/-- `RingBuffer::clear`: reset every slot to `None` (the `for` loop over
`entries.iter_mut()`) and zero the indices. -/
def RingBuffer.clear (b : RingBuffer) : RingBuffer :=
  { entries := b.entries.map (fun _ => none)
    tail := 0
    head := 0
    len := 0 }

/-! ## Logger facade -/
/-- Embedding of `RingBufferLogger`.  The `Arc<RwLock<..>>` wrapper and
the atomic counter serialise all operations; the sequential model below
is the linearised behaviour.  Lock poisoning is recovered from
(`into_inner`), so it never changes the state seen here. -/
structure RingBufferLogger where
  buffer : RingBuffer
  max_entries : Nat
  max_entry_bytes : Nat
  eviction_count : Nat
deriving DecidableEq, Repr

/-- `RingBufferLogger::new`: the requested entry count is coerced to at
least 1 (`max_entries.max(1)`). -/
def RingBufferLogger.new (max_entries max_entry_bytes : Nat) :
    RingBufferLogger :=
  let bounded_entries := Nat.max max_entries 1
  { buffer := RingBuffer.new bounded_entries
    max_entries := bounded_entries
    max_entry_bytes := max_entry_bytes
    eviction_count := 0 }

/-- Method form of `create_entry` (reads only `self.max_entry_bytes`). -/
def RingBufferLogger.create_entry (l : RingBufferLogger)
    (log : InternalLog) (source_ip : List Char) (clock : Option Nat) :
    ForensicEntry :=
  createEntryCore l.max_entry_bytes log source_ip clock

/-- `RingBufferLogger::log`: build the bounded entry, push it, and bump
the eviction counter when `push` returned an evicted occupant. -/
def RingBufferLogger.log (l : RingBufferLogger) (log : InternalLog)
    (source_ip : List Char) (clock : Option Nat) : RingBufferLogger :=
  let entry := l.create_entry log source_ip clock
  let pr := l.buffer.push entry
  { l with
    buffer := pr.1
    eviction_count := l.eviction_count + (if pr.2.isSome then 1 else 0) }

/-- `RingBufferLogger::get_recent`: `iter().rev().take(count)`. -/
def RingBufferLogger.get_recent (l : RingBufferLogger) (count : Nat) :
    List ForensicEntry :=
  (l.buffer.iter.reverse).take count

/-- `RingBufferLogger::get_all`: `iter().rev()`. -/
def RingBufferLogger.get_all (l : RingBufferLogger) : List ForensicEntry :=
  l.buffer.iter.reverse

/-- `RingBufferLogger::get_filtered`: `iter().filter(predicate)` —
note: no `rev()` in the source. -/
def RingBufferLogger.get_filtered (l : RingBufferLogger)
    (p : ForensicEntry → Bool) : List ForensicEntry :=
  l.buffer.iter.filter p

/-- `RingBufferLogger::len`. -/
def RingBufferLogger.len (l : RingBufferLogger) : Nat :=
  l.buffer.len

/-- `RingBufferLogger::is_empty`. -/
def RingBufferLogger.is_empty (l : RingBufferLogger) : Bool :=
  l.len = 0

/-- `RingBufferLogger::payload_bytes`. -/
def RingBufferLogger.payload_bytes (l : RingBufferLogger) : Nat :=
  (l.buffer.iter.map (fun e => e.size_bytes)).sum

/-- `RingBufferLogger::clear`: clears the storage; the eviction counter
and the configuration fields are untouched. -/
def RingBufferLogger.clear (l : RingBufferLogger) : RingBufferLogger :=
  { l with buffer := l.buffer.clear }

/-- `RingBufferLogger::capacity`. -/
def RingBufferLogger.capacity (l : RingBufferLogger) : Nat :=
  l.max_entries

/-- `RingBufferLogger::is_full`. -/
def RingBufferLogger.is_full (l : RingBufferLogger) : Bool :=
  l.max_entries ≤ l.len

/-- One `log` call's inputs: the internal error log view, the caller's
source identifier, and the clock reading at that call. -/
structure LogInput where
  log : InternalLog
  source_ip : List Char
  clock : Option Nat
deriving DecidableEq, Repr

/-- The entry a logger configured with `max_entry_bytes = b` constructs
for input `i`. -/
def mkEntry (b : Nat) (i : LogInput) : ForensicEntry :=
  createEntryCore b i.log i.source_ip i.clock

/-- Replay a sequence of `log` calls. -/
def RingBufferLogger.logMany (l : RingBufferLogger) (is : List LogInput) :
    RingBufferLogger :=
  is.foldl (fun a i => a.log i.log i.source_ip i.clock) l

/-! ## Ring buffer well-formedness and refinement to a queue -/
/-- The physical ring buffer state `b` realises the abstract queue `q`
(entries in insertion order, oldest first): the occupied slots are
exactly `(head + i) % capacity` for `i < q.length`, holding `q`'s
elements in order, `tail` is one past the newest element, and all other
slots are empty. -/
structure RingBuffer.WF (b : RingBuffer) (q : List ForensicEntry) : Prop where
  cap_pos : 1 ≤ b.entries.length
  head_lt : b.head < b.entries.length
  len_le : q.length ≤ b.entries.length
  len_eq : b.len = q.length
  tail_eq : b.tail = (b.head + q.length) % b.entries.length
  filled : ∀ i, i < q.length →
    b.entries.getD ((b.head + i) % b.entries.length) none = q[i]?
  vacant : ∀ j, j < b.entries.length →
    (∀ i, i < q.length → (b.head + i) % b.entries.length ≠ j) →
    b.entries.getD j none = none

/-! ## Logger invariant over sequences of log calls -/
/-- Abstract one-step queue evolution matching `push`: append, dropping
the oldest element when already at capacity. -/
def qstep (cap : Nat) (q : List ForensicEntry) (e : ForensicEntry) :
    List ForensicEntry :=
  if q.length < cap then q ++ [e] else q.drop 1 ++ [e]

/-- Invariant of a logger after `M` `log` calls from a fresh state:
the buffer realises the abstract queue `q`, the configuration is
consistent, the eviction counter equals `M - capacity` (truncated), and
the queue holds `min M capacity` entries. -/
structure LoggerInv (l : RingBufferLogger) (M : Nat)
    (q : List ForensicEntry) : Prop where
  wf : RingBuffer.WF l.buffer q
  cap_eq : l.buffer.entries.length = l.max_entries
  cap_pos : 1 ≤ l.max_entries
  evict_eq : l.eviction_count = M - l.max_entries
  len_min : q.length = min M l.max_entries

/-! ## Metadata collection and entry size accounting -/
/-- Total bytes of a stored metadata sequence: full key plus stored
value, per pair. -/
def metaBytes (md : List (List Char × List Char)) : Nat :=
  (md.map (fun kv => utf8Len kv.1 + utf8Len kv.2)).sum

/-- The truncated operation field as stored by `create_entry`. -/
def opTrunc (maxB : Nat) (lg : InternalLog) : List Char :=
  truncate_to_bytes lg.operation (min maxB 256)

/-- The truncated details field as stored by `create_entry`. -/
def detTrunc (maxB : Nat) (lg : InternalLog) : List Char :=
  truncate_to_bytes lg.details (min (maxB - utf8Len (opTrunc maxB lg)) 512)

/-- The byte budget that remains after the operation and details fields. -/
def remAfterDetails (maxB : Nat) (lg : InternalLog) : Nat :=
  maxB - utf8Len (opTrunc maxB lg) - utf8Len (detTrunc maxB lg)

/-- The byte budget that remains after the metadata loop, i.e. the value
of `remaining` at the source-identifier step of `create_entry`. -/
def remainingAfterMeta (maxB : Nat) (lg : InternalLog) : Nat :=
  (collectMeta lg.metadata (remAfterDetails maxB lg)).2.2

/-! ## Sample inputs used by concrete witnesses -/
def sampleLog : InternalLog :=
  ⟨"E-CFG-100".toList, "op".toList, "details".toList,
    [("key".toList, "value".toList)], true⟩

def sampleInput : LogInput := ⟨sampleLog, "1.2.3.4".toList, some 42⟩

def hugeInput : LogInput :=
  ⟨⟨"E-CFG-100".toList, "op".toList, List.replicate 200 'X', [], false⟩,
    "1.2.3.4".toList, some 7⟩

def hugeEntry : ForensicEntry := mkEntry 128 hugeInput

def orderInputA : LogInput :=
  ⟨⟨"C".toList, "o".toList, "a".toList, [], false⟩, "ip".toList, some 1⟩

def orderInputB : LogInput :=
  ⟨⟨"C".toList, "o".toList, "b".toList, [], false⟩, "ip".toList, some 2⟩

/-- The size the claim "size_bytes equals the sum of the byte lengths of
the stored code, operation, details, source identifier, and metadata"
would require. -/
def claimedEntrySize (e : ForensicEntry) : Nat :=
  utf8Len e.code + utf8Len e.operation + utf8Len e.details
    + utf8Len e.source_ip + metaBytes e.metadata

/-! ## Theorems -/

theorem charSize_pos (c : Char) : 1 ≤ charSize c := by
  unfold charSize
  split
  · omega
  split
  · omega
  split
  · omega
  · omega

theorem utf8Len_append (a b : List Char) :
    utf8Len (a ++ b) = utf8Len a + utf8Len b := by
  induction a with
  | nil => simp [utf8Len]
  | cons c cs ih => simp [utf8Len, ih, Nat.add_assoc]

theorem utf8Len_eq_zero {s : List Char} : utf8Len s = 0 ↔ s = [] := by
  cases s with
  | nil => simp [utf8Len]
  | cons c cs =>
    simp only [utf8Len]
    constructor
    · intro h
      have := charSize_pos c
      omega
    · intro h
      exact absurd h (by simp)

theorem utf8Len_of_ascii {l : List Char} (h : ∀ c ∈ l, charSize c = 1) :
    utf8Len l = l.length := by
  induction l with
  | nil => simp [utf8Len]
  | cons c cs ih =>
    simp only [utf8Len, List.length_cons]
    rw [h c (by simp), ih (fun c hc => h c (by simp [hc]))]
    omega

theorem indicator_ascii : ∀ c ∈ indicator, charSize c = 1 := by decide

theorem utf8Len_indicator : utf8Len indicator = 10 := by decide

theorem utf8Len_indicator_take (n : Nat) :
    utf8Len (indicator.take n) ≤ n := by
  have h : utf8Len (indicator.take n) = (indicator.take n).length :=
    utf8Len_of_ascii (fun c hc => indicator_ascii c (List.mem_of_mem_take hc))
  rw [h, List.length_take]
  omega

theorem utf8Len_takeChars_le (s : List Char) (b : Nat) :
    utf8Len (takeChars s b) ≤ b := by
  induction s generalizing b with
  | nil => simp [takeChars, utf8Len]
  | cons c cs ih =>
    simp only [takeChars]
    split
    · simp only [utf8Len]
      have := ih (b - charSize c)
      omega
    · simp [utf8Len]

/-- Output byte-length bound of `truncate_to_bytes`: never exceeds the
budget. -/
theorem truncate_to_bytes_len_le (s : List Char) (B : Nat) :
    utf8Len (truncate_to_bytes s B) ≤ B := by
  unfold truncate_to_bytes
  split
  · simp [utf8Len]
  split
  · assumption
  split
  · exact utf8Len_indicator_take B
  · dsimp only
    rename_i hB
    rw [utf8Len_indicator] at hB
    split
    · rw [utf8Len_indicator]; omega
    · rw [utf8Len_append, utf8Len_indicator]
      have := utf8Len_takeChars_le s (B - utf8Len indicator)
      rw [utf8Len_indicator] at this
      omega

/-- Identity fast path: a string that fits the budget is returned
unchanged. -/
theorem truncate_to_bytes_of_fits {s : List Char} {B : Nat}
    (h : utf8Len s ≤ B) : truncate_to_bytes s B = s := by
  unfold truncate_to_bytes
  split
  · rename_i h0
    subst h0
    have : utf8Len s = 0 := by omega
    exact (utf8Len_eq_zero.mp this).symm
  · simp [h]

theorem truncate_to_bytes_ne_of_over {s : List Char} {B : Nat}
    (h : B < utf8Len s) : truncate_to_bytes s B ≠ s := by
  intro he
  have hl := truncate_to_bytes_len_le s B
  rw [he] at hl
  omega

/-- Claim C3: for every string `s` and byte budget `B`,
`truncate_to_bytes s B` has byte length at most `B` (and, being a
character list, is valid UTF-8 with no split multi-byte character), and
it equals `s` exactly when `s` already fits in `B` bytes — in
particular no truncation marker is appended when `s` fits exactly. -/
theorem truncate_to_bytes_contract (s : List Char) (B : Nat) :
    utf8Len (truncate_to_bytes s B) ≤ B ∧
      (truncate_to_bytes s B = s ↔ utf8Len s ≤ B) := by
  refine ⟨truncate_to_bytes_len_le s B, ?_, truncate_to_bytes_of_fits⟩
  intro he
  by_contra hgt
  exact truncate_to_bytes_ne_of_over (by omega) he

/-! ## List and arithmetic helpers -/
theorem getD_set_self {α : Type} (l : List α) (i : Nat) (a d : α)
    (h : i < l.length) : (l.set i a).getD i d = a := by
  induction l generalizing i with
  | nil => simp at h
  | cons x xs ih =>
    cases i with
    | zero => simp [List.set, List.getD]
    | succ n =>
      simp only [List.set, List.getD_cons_succ]
      exact ih n (by simpa using h)

theorem getD_set_ne {α : Type} (l : List α) (i j : Nat) (a d : α)
    (h : i ≠ j) : (l.set i a).getD j d = l.getD j d := by
  induction l generalizing i j with
  | nil => simp [List.set]
  | cons x xs ih =>
    cases i with
    | zero =>
      cases j with
      | zero => exact absurd rfl h
      | succ n => simp [List.set, List.getD_cons_succ]
    | succ m =>
      cases j with
      | zero => simp [List.set, List.getD_cons_zero]
      | succ n =>
        simp only [List.set, List.getD_cons_succ]
        exact ih m n (by omega)

theorem getD_replicate_self {α : Type} (n j : Nat) (x : α) :
    (List.replicate n x).getD j x = x := by
  induction n generalizing j with
  | zero => simp [List.getD]
  | succ m ih =>
    cases j with
    | zero => simp [List.replicate, List.getD_cons_zero]
    | succ k => simpa [List.replicate, List.getD_cons_succ] using ih k

theorem getD_map_const {α β : Type} (l : List α) (j : Nat) (x : β) :
    (l.map (fun _ => x)).getD j x = x := by
  induction l generalizing j with
  | nil => simp [List.getD]
  | cons a as ih =>
    cases j with
    | zero => simp [List.getD_cons_zero]
    | succ k => simpa [List.getD_cons_succ] using ih k

theorem filterMap_congr_mem {α β : Type} {f g : α → Option β} :
    ∀ (l : List α), (∀ a ∈ l, f a = g a) → l.filterMap f = l.filterMap g := by
  intro l
  induction l with
  | nil => intro _; rfl
  | cons a as ih =>
    intro h
    rw [List.filterMap_cons, List.filterMap_cons, h a (by simp),
      ih (fun x hx => h x (by simp [hx]))]

theorem filterMap_range_getElem? {α : Type} (q : List α) :
    ∀ n, n ≤ q.length →
      (List.range n).filterMap (fun i => q[i]?) = q.take n := by
  intro n
  induction n with
  | zero => simp
  | succ m ih =>
    intro h
    rw [List.range_succ, List.filterMap_append, ih (by omega), List.take_succ]
    have hm : m < q.length := by omega
    simp [List.getElem?_eq_getElem hm]

theorem add_mod_inj {cap h i j : Nat} (hi : i < cap) (hj : j < cap)
    (he : (h + i) % cap = (h + j) % cap) : i = j := by
  have h1 : Nat.ModEq cap (h + i) (h + j) := he
  have h2 : Nat.ModEq cap i j := (Nat.ModEq.refl h).add_left_cancel h1
  have h3 : i % cap = j % cap := h2
  rwa [Nat.mod_eq_of_lt hi, Nat.mod_eq_of_lt hj] at h3

theorem add_mod_surj {cap h : Nat} (hh : h < cap) {j : Nat} (hj : j < cap) :
    ∃ i, i < cap ∧ (h + i) % cap = j := by
  refine ⟨(j + cap - h) % cap, Nat.mod_lt _ (by omega), ?_⟩
  rw [Nat.add_mod_mod]
  have hq : h + (j + cap - h) = j + cap := by omega
  rw [hq, Nat.add_mod_right, Nat.mod_eq_of_lt hj]

theorem RingBuffer.WF.new (capacity : Nat) (h : 1 ≤ capacity) :
    RingBuffer.WF (RingBuffer.new capacity) [] := by
  refine ⟨?_, ?_, ?_, ?_, ?_, ?_, ?_⟩
  · simpa [RingBuffer.new] using h
  · simpa [RingBuffer.new] using h
  · simp [RingBuffer.new]
  · simp [RingBuffer.new]
  · simp [RingBuffer.new]
  · intro i hi; simp at hi
  · intro j _ _
    simp only [RingBuffer.new]
    exact getD_replicate_self capacity j none

theorem RingBuffer.WF.iter_eq {b : RingBuffer} {q : List ForensicEntry}
    (w : RingBuffer.WF b q) : b.iter = q := by
  unfold RingBuffer.iter
  rw [w.len_eq]
  rw [filterMap_congr_mem (List.range q.length)
    (g := fun i => q[i]?) (fun i hi => w.filled i (List.mem_range.mp hi))]
  rw [filterMap_range_getElem? q q.length (Nat.le_refl _), List.take_length]

theorem RingBuffer.WF.push_not_full {b : RingBuffer}
    {q : List ForensicEntry} {e : ForensicEntry}
    (w : RingBuffer.WF b q) (h : q.length < b.entries.length) :
    RingBuffer.WF (b.push e).1 (q ++ [e]) ∧ (b.push e).2 = none := by
  have hcap : 1 ≤ b.entries.length := w.cap_pos
  have htail_lt : b.tail < b.entries.length := by
    rw [w.tail_eq]; exact Nat.mod_lt _ (by omega)
  have htail_ne : ∀ i, i < q.length →
      (b.head + i) % b.entries.length ≠ b.tail := by
    intro i hi hcontra
    rw [w.tail_eq] at hcontra
    have := add_mod_inj (by omega) h hcontra
    omega
  have hev : (b.push e).2 = none := by
    have hvac := w.vacant b.tail htail_lt htail_ne
    simp only [RingBuffer.push]
    split <;> exact hvac
  have hbranch : b.len < b.entries.length := by rw [w.len_eq]; exact h
  refine ⟨?_, hev⟩
  have hpush : (b.push e).1 =
      { entries := b.entries.set b.tail (some e),
        tail := (b.tail + 1) % b.entries.length,
        head := b.head, len := b.len + 1 } := by
    simp only [RingBuffer.push]
    rw [if_pos hbranch]
  rw [hpush]
  refine ⟨?_, ?_, ?_, ?_, ?_, ?_, ?_⟩
  · simpa [List.length_set] using hcap
  · simpa [List.length_set] using w.head_lt
  · simp only [List.length_set, List.length_append, List.length_singleton]
    omega
  · simp only [List.length_append, List.length_singleton, w.len_eq]
  · simp only [List.length_set, List.length_append, List.length_singleton]
    rw [w.tail_eq, Nat.mod_add_mod]
    congr 1
  · intro i hi
    simp only [List.length_set]
    rw [List.length_append, List.length_singleton] at hi
    by_cases hcase : i < q.length
    · rw [getD_set_ne _ _ _ _ _ (fun hc => htail_ne i hcase hc.symm)]
      rw [w.filled i hcase, List.getElem?_append_left hcase]
    · have hieq : i = q.length := by omega
      subst hieq
      have hidx : (b.head + q.length) % b.entries.length = b.tail :=
        (w.tail_eq).symm
      rw [hidx, getD_set_self _ _ _ _ htail_lt]
      rw [List.getElem?_concat_length]
  · intro j hj hnone
    simp only [List.length_set] at hj hnone
    have hjt : b.tail ≠ j := by
      intro hc
      exact hnone q.length (by simp) (by rw [← w.tail_eq, hc])
    rw [getD_set_ne _ _ _ _ _ hjt]
    exact w.vacant j hj (fun i hi =>
      hnone i (by rw [List.length_append, List.length_singleton]; omega))

theorem RingBuffer.WF.push_full {b : RingBuffer}
    {q : List ForensicEntry} {e : ForensicEntry}
    (w : RingBuffer.WF b q) (h : q.length = b.entries.length) :
    RingBuffer.WF (b.push e).1 (q.drop 1 ++ [e]) ∧ (b.push e).2 = q[0]? := by
  have hcap : 1 ≤ b.entries.length := w.cap_pos
  have htail_head : b.tail = b.head := by
    rw [w.tail_eq, h, Nat.add_mod_right, Nat.mod_eq_of_lt w.head_lt]
  have hev : (b.push e).2 = q[0]? := by
    have h0 := w.filled 0 (by omega)
    rw [Nat.add_zero, Nat.mod_eq_of_lt w.head_lt] at h0
    simp only [RingBuffer.push]
    split <;> (rw [htail_head]; exact h0)
  have hbranch : ¬ b.len < b.entries.length := by rw [w.len_eq, h]; omega
  refine ⟨?_, hev⟩
  have hpush : (b.push e).1 =
      { entries := b.entries.set b.tail (some e),
        tail := (b.tail + 1) % b.entries.length,
        head := (b.head + 1) % b.entries.length, len := b.len } := by
    simp only [RingBuffer.push]
    rw [if_neg hbranch]
  rw [hpush]
  have hqlen : (q.drop 1 ++ [e]).length = q.length := by
    rw [List.length_append, List.length_drop, List.length_singleton]
    omega
  refine ⟨?_, ?_, ?_, ?_, ?_, ?_, ?_⟩
  · simpa [List.length_set] using hcap
  · simp only [List.length_set]
    exact Nat.mod_lt _ (by omega)
  · simp only [List.length_set, hqlen]; omega
  · rw [hqlen, w.len_eq]
  · simp only [List.length_set, hqlen, h]
    rw [Nat.mod_add_mod, Nat.add_mod_right, htail_head]
  · intro i hi
    rw [hqlen, h] at hi
    simp only [List.length_set]
    rw [Nat.mod_add_mod]
    by_cases hcase : i < b.entries.length - 1
    · have hne : (b.head + 1 + i) % b.entries.length ≠ b.tail := by
        intro hc
        rw [htail_head] at hc
        have hc2 : (b.head + (1 + i)) % b.entries.length =
            (b.head + 0) % b.entries.length := by
          rw [Nat.add_assoc] at hc
          rw [hc, Nat.add_zero, Nat.mod_eq_of_lt w.head_lt]
        have := add_mod_inj (by omega) (by omega) hc2
        omega
      rw [getD_set_ne _ _ _ _ _ (fun hc => hne hc.symm)]
      have hfi := w.filled (i + 1) (by omega)
      rw [show b.head + (i + 1) = b.head + 1 + i by omega] at hfi
      rw [hfi]
      have hdl : i < (q.drop 1).length := by
        rw [List.length_drop]; omega
      rw [List.getElem?_append_left hdl, List.getElem?_drop]
      congr 1
      omega
    · have hieq : i = b.entries.length - 1 := by omega
      subst hieq
      have hidx : (b.head + 1 + (b.entries.length - 1)) % b.entries.length
          = b.tail := by
        rw [htail_head]
        rw [show b.head + 1 + (b.entries.length - 1)
            = b.head + b.entries.length by omega]
        rw [Nat.add_mod_right, Nat.mod_eq_of_lt w.head_lt]
      rw [hidx, getD_set_self _ _ _ _ (by rw [htail_head]; exact w.head_lt)]
      have hdl : (q.drop 1).length = b.entries.length - 1 := by
        rw [List.length_drop]; omega
      rw [← hdl, List.getElem?_concat_length]
  · intro j hj hnone
    simp only [List.length_set] at hj hnone
    exfalso
    obtain ⟨i, hi, hie⟩ :=
      add_mod_surj (Nat.mod_lt (b.head + 1) (by omega)) hj
    exact hnone i (by rw [hqlen, h]; exact hi)
      (by rw [Nat.mod_add_mod] at hie ⊢; exact hie)

theorem LoggerInv.fresh (m b : Nat) :
    LoggerInv (RingBufferLogger.new m b) 0 [] := by
  have hcap : 1 ≤ Nat.max m 1 := Nat.le_max_right m 1
  refine ⟨?_, ?_, ?_, ?_, ?_⟩
  · exact RingBuffer.WF.new _ hcap
  · simp [RingBufferLogger.new, RingBuffer.new]
  · exact hcap
  · simp [RingBufferLogger.new]
  · simp

theorem LoggerInv.step {l : RingBufferLogger} {M : Nat}
    {q : List ForensicEntry} (inv : LoggerInv l M q) (lg : InternalLog)
    (sip : List Char) (ck : Option Nat) :
    LoggerInv (l.log lg sip ck) (M + 1)
      (qstep l.max_entries q (mkEntry l.max_entry_bytes ⟨lg, sip, ck⟩)) := by
  have hentry : l.create_entry lg sip ck
      = mkEntry l.max_entry_bytes ⟨lg, sip, ck⟩ := rfl
  have hmin := inv.len_min
  have hplen : ∀ e, ((l.buffer.push e).1).entries.length
      = l.buffer.entries.length := by
    intro e
    simp only [RingBuffer.push]
    split <;> simp [List.length_set]
  by_cases hfull : q.length < l.max_entries
  · have hlt : q.length < l.buffer.entries.length := by
      rw [inv.cap_eq]; exact hfull
    obtain ⟨hwf, hev⟩ := inv.wf.push_not_full
      (e := l.create_entry lg sip ck) hlt
    have hM : M < l.max_entries := by
      by_contra hc
      push_neg at hc
      rw [Nat.min_eq_right hc] at hmin
      omega
    have hq : qstep l.max_entries q (mkEntry l.max_entry_bytes ⟨lg, sip, ck⟩)
        = q ++ [l.create_entry lg sip ck] := by
      rw [qstep, if_pos hfull, hentry]
    rw [hq]
    refine ⟨hwf, ?_, inv.cap_pos, ?_, ?_⟩
    · show ((l.buffer.push (l.create_entry lg sip ck)).1).entries.length
        = l.max_entries
      rw [hplen, inv.cap_eq]
    · show l.eviction_count
        + (if (l.buffer.push (l.create_entry lg sip ck)).2.isSome
           then 1 else 0)
        = M + 1 - l.max_entries
      rw [hev]
      have := inv.evict_eq
      simp only [Option.isSome_none, Bool.false_eq_true, if_false]
      omega
    · show (q ++ [l.create_entry lg sip ck]).length
        = min (M + 1) l.max_entries
      rw [List.length_append, List.length_singleton, hmin,
        Nat.min_eq_left (by omega), Nat.min_eq_left (by omega)]
  · have hqcap : q.length = l.buffer.entries.length := by
      have h1 := inv.wf.len_le
      rw [inv.cap_eq] at h1 ⊢
      omega
    obtain ⟨hwf, hev⟩ := inv.wf.push_full
      (e := l.create_entry lg sip ck) hqcap
    have hM : l.max_entries ≤ M := by
      by_contra hc
      push_neg at hc
      rw [Nat.min_eq_left (Nat.le_of_lt hc)] at hmin
      omega
    have hqne : q ≠ [] := by
      intro hc
      have := inv.cap_pos
      rw [hc, inv.cap_eq] at hqcap
      simp at hqcap
      omega
    have hsome : (l.buffer.push (l.create_entry lg sip ck)).2.isSome
        = true := by
      rw [hev]
      cases q with
      | nil => exact absurd rfl hqne
      | cons a as => simp
    have hq : qstep l.max_entries q (mkEntry l.max_entry_bytes ⟨lg, sip, ck⟩)
        = q.drop 1 ++ [l.create_entry lg sip ck] := by
      rw [qstep, if_neg hfull, hentry]
    rw [hq]
    refine ⟨hwf, ?_, inv.cap_pos, ?_, ?_⟩
    · show ((l.buffer.push (l.create_entry lg sip ck)).1).entries.length
        = l.max_entries
      rw [hplen, inv.cap_eq]
    · show l.eviction_count
        + (if (l.buffer.push (l.create_entry lg sip ck)).2.isSome
           then 1 else 0)
        = M + 1 - l.max_entries
      rw [hsome]
      have := inv.evict_eq
      simp only [if_true]
      omega
    · show (q.drop 1 ++ [l.create_entry lg sip ck]).length
        = min (M + 1) l.max_entries
      rw [List.length_append, List.length_drop, List.length_singleton,
        Nat.min_eq_right (by omega)]
      rw [inv.cap_eq] at hqcap
      have := inv.cap_pos
      omega

theorem logMany_inv : ∀ (is : List LogInput) (l : RingBufferLogger)
    (M : Nat) (q : List ForensicEntry), LoggerInv l M q →
    LoggerInv (l.logMany is) (M + is.length)
      (List.foldl (qstep l.max_entries) q (is.map (mkEntry l.max_entry_bytes))) := by
  intro is
  induction is with
  | nil =>
    intro l M q inv
    simpa [RingBufferLogger.logMany] using inv
  | cons i rest ih =>
    intro l M q inv
    have hstep := inv.step i.log i.source_ip i.clock
    have hrec := ih (l.log i.log i.source_ip i.clock) (M + 1)
      (qstep l.max_entries q (mkEntry l.max_entry_bytes
        ⟨i.log, i.source_ip, i.clock⟩)) hstep
    have hcfg1 : (l.log i.log i.source_ip i.clock).max_entries
        = l.max_entries := rfl
    have hcfg2 : (l.log i.log i.source_ip i.clock).max_entry_bytes
        = l.max_entry_bytes := rfl
    rw [hcfg1, hcfg2] at hrec
    have hlm : l.logMany (i :: rest)
        = (l.log i.log i.source_ip i.clock).logMany rest := rfl
    rw [hlm]
    have hin : (⟨i.log, i.source_ip, i.clock⟩ : LogInput) = i := rfl
    rw [hin] at hrec
    have harith : M + 1 + rest.length = M + (rest.length + 1) := by omega
    rw [harith] at hrec
    simpa [List.foldl_cons, List.map_cons, List.length_cons] using hrec

theorem foldl_qstep_eq (cap : Nat) (hcap : 1 ≤ cap) :
    ∀ (es q : List ForensicEntry), q.length ≤ cap →
      List.foldl (qstep cap) q es
        = (q ++ es).drop ((q.length + es.length) - cap) := by
  intro es
  induction es with
  | nil =>
    intro q hq
    simp only [List.foldl_nil, List.length_nil, Nat.add_zero,
      List.append_nil]
    rw [show q.length - cap = 0 by omega, List.drop_zero]
  | cons e rest ih =>
    intro q hq
    simp only [List.foldl_cons]
    by_cases hlt : q.length < cap
    · have hstep : qstep cap q e = q ++ [e] := by rw [qstep, if_pos hlt]
      rw [hstep, ih (q ++ [e])
        (by rw [List.length_append, List.length_singleton]; omega)]
      rw [List.append_assoc, List.singleton_append]
      congr 1
      rw [List.length_append, List.length_singleton, List.length_cons]
      omega
    · have hqcap : q.length = cap := by omega
      have hstep : qstep cap q e = q.drop 1 ++ [e] := by
        rw [qstep, if_neg hlt]
      rw [hstep, ih (q.drop 1 ++ [e])
        (by rw [List.length_append, List.length_drop,
          List.length_singleton]; omega)]
      have hleft : (q.drop 1 ++ [e]) ++ rest = (q ++ e :: rest).drop 1 := by
        rw [List.drop_append_of_le_length (by omega), List.append_assoc,
          List.singleton_append]
      rw [hleft, List.drop_drop]
      congr 1
      rw [List.length_append, List.length_drop, List.length_singleton,
        List.length_cons]
      omega

theorem logMany_max_entries (l : RingBufferLogger) :
    ∀ is : List LogInput, (l.logMany is).max_entries = l.max_entries := by
  intro is
  induction is generalizing l with
  | nil => rfl
  | cons i rest ih => exact ih (l.log i.log i.source_ip i.clock)

theorem logMany_max_entry_bytes (l : RingBufferLogger) :
    ∀ is : List LogInput,
      (l.logMany is).max_entry_bytes = l.max_entry_bytes := by
  intro is
  induction is generalizing l with
  | nil => rfl
  | cons i rest ih => exact ih (l.log i.log i.source_ip i.clock)

/-- Every state reachable by replaying `log` calls on a fresh logger
satisfies the invariant, with the abstract queue being the suffix of the
constructed entries that fits the capacity (in insertion order). -/
theorem reach_inv (m b : Nat) (is : List LogInput) :
    LoggerInv ((RingBufferLogger.new m b).logMany is) is.length
      ((is.map (mkEntry b)).drop (is.length - Nat.max m 1)) := by
  have h := logMany_inv is (RingBufferLogger.new m b) 0 []
    (LoggerInv.fresh m b)
  have hcap : (RingBufferLogger.new m b).max_entries = Nat.max m 1 := rfl
  have hbytes : (RingBufferLogger.new m b).max_entry_bytes = b := rfl
  rw [hcap, hbytes] at h
  rw [foldl_qstep_eq (Nat.max m 1) (Nat.le_max_right m 1) _ [] (by simp)] at h
  simpa using h

theorem collectMeta_used (ps : List (List Char × List Char)) :
    ∀ r : Nat, (collectMeta ps r).2.1 ≤ r ∧
      (collectMeta ps r).2.2 = r - (collectMeta ps r).2.1 := by
  induction ps with
  | nil => intro r; simp [collectMeta]
  | cons p rest ih =>
    obtain ⟨k, v⟩ := p
    intro r
    simp only [collectMeta]
    split
    · simp
    split
    · simp
    try dsimp only
    split
    · simp
    try dsimp only
    split
    · simp
    · rename_i h0 hk hcap hused
      try dsimp only
      set u := utf8Len k
        + utf8Len (truncate_to_bytes v (min (r - utf8Len k) 128)) with hu
      have hih := ih (r - u)
      omega

theorem collectMeta_size_eq (ps : List (List Char × List Char)) :
    ∀ r : Nat, (collectMeta ps r).2.1 = metaBytes (collectMeta ps r).1 := by
  induction ps with
  | nil => intro r; simp [collectMeta, metaBytes]
  | cons p rest ih =>
    obtain ⟨k, v⟩ := p
    intro r
    simp only [collectMeta]
    split
    · simp [metaBytes]
    split
    · simp [metaBytes]
    try dsimp only
    split
    · simp [metaBytes]
    try dsimp only
    split
    · simp [metaBytes]
    · dsimp only
      set u := utf8Len k
        + utf8Len (truncate_to_bytes v (min (r - utf8Len k) 128)) with hu
      have hih := ih (r - u)
      simp only [metaBytes, List.map_cons, List.sum_cons] at *
      omega

theorem collectMeta_val_le (ps : List (List Char × List Char)) :
    ∀ r : Nat, ∀ pair ∈ (collectMeta ps r).1, utf8Len pair.2 ≤ 128 := by
  induction ps with
  | nil => intro r pair hp; simp [collectMeta] at hp
  | cons p rest ih =>
    obtain ⟨k, v⟩ := p
    intro r pair hp
    simp only [collectMeta] at hp
    split at hp
    · simp at hp
    split at hp
    · simp at hp
    try dsimp only at hp
    split at hp
    · simp at hp
    try dsimp only at hp
    split at hp
    · simp at hp
    · dsimp only at hp
      rcases List.mem_cons.mp hp with hh | ht
      · subst hh
        show utf8Len (truncate_to_bytes v (min (r - utf8Len k) 128)) ≤ 128
        have h1 := truncate_to_bytes_len_le v (min (r - utf8Len k) 128)
        have h2 : min (r - utf8Len k) 128 ≤ 128 := Nat.min_le_right _ _
        omega
      · exact ih _ pair ht

theorem collectMeta_keys (ps : List (List Char × List Char)) :
    ∀ r : Nat, ((collectMeta ps r).1).map Prod.fst
      = (ps.map Prod.fst).take ((collectMeta ps r).1).length := by
  induction ps with
  | nil => intro r; simp [collectMeta]
  | cons p rest ih =>
    obtain ⟨k, v⟩ := p
    intro r
    simp only [collectMeta]
    split
    · simp
    split
    · simp
    try dsimp only
    split
    · simp
    try dsimp only
    split
    · simp
    · dsimp only
      simp only [List.map_cons, List.length_cons, List.take_succ_cons]
      rw [ih]

theorem collectMeta_get (ps : List (List Char × List Char)) :
    ∀ r i : Nat, i < ((collectMeta ps r).1).length →
      ∃ ri, ((collectMeta ps r).1)[i]?
        = (ps[i]?).map
            (fun kv => (kv.1, truncate_to_bytes kv.2
              (min (ri - utf8Len kv.1) 128))) := by
  induction ps with
  | nil => intro r i hi; simp [collectMeta] at hi
  | cons p rest ih =>
    obtain ⟨k, v⟩ := p
    intro r i hi
    simp only [collectMeta] at hi ⊢
    split at hi
    · simp at hi
    split at hi
    · simp at hi
    try dsimp only at hi
    split at hi
    · simp at hi
    try dsimp only at hi
    split at hi
    · simp at hi
    · rename_i h0 hk hcap hused
      try dsimp only at hi
      rw [if_neg h0, if_neg hk]
      try dsimp only
      rw [if_neg hcap]
      try dsimp only
      rw [if_neg hused]
      try dsimp only
      cases i with
      | zero => exact ⟨r, by simp⟩
      | succ n =>
        simp only [List.length_cons] at hi
        obtain ⟨ri, hri⟩ := ih
          (r - (utf8Len k
            + utf8Len (truncate_to_bytes v (min (r - utf8Len k) 128))))
          n (by omega)
        exact ⟨ri, by simpa using hri⟩

theorem createEntryCore_operation (maxB : Nat) (lg : InternalLog)
    (sip : List Char) (ck : Option Nat) :
    (createEntryCore maxB lg sip ck).operation = opTrunc maxB lg := rfl

theorem createEntryCore_details (maxB : Nat) (lg : InternalLog)
    (sip : List Char) (ck : Option Nat) :
    (createEntryCore maxB lg sip ck).details = detTrunc maxB lg := rfl

theorem createEntryCore_metadata (maxB : Nat) (lg : InternalLog)
    (sip : List Char) (ck : Option Nat) :
    (createEntryCore maxB lg sip ck).metadata
      = (collectMeta lg.metadata (remAfterDetails maxB lg)).1 := rfl

theorem createEntryCore_source_ip (maxB : Nat) (lg : InternalLog)
    (sip : List Char) (ck : Option Nat) :
    (createEntryCore maxB lg sip ck).source_ip
      = if remainingAfterMeta maxB lg = 0 then truncMarker
        else truncate_to_bytes sip (min (remainingAfterMeta maxB lg) 128) := by
  unfold createEntryCore remainingAfterMeta remAfterDetails detTrunc opTrunc
  dsimp only
  split <;> rfl

theorem createEntryCore_size_eq (maxB : Nat) (lg : InternalLog)
    (sip : List Char) (ck : Option Nat) :
    (createEntryCore maxB lg sip ck).size_bytes =
      utf8Len (opTrunc maxB lg) + utf8Len (detTrunc maxB lg)
        + (collectMeta lg.metadata (remAfterDetails maxB lg)).2.1
        + (if remainingAfterMeta maxB lg = 0 then 0
           else utf8Len (truncate_to_bytes sip
             (min (remainingAfterMeta maxB lg) 128))) := by
  unfold createEntryCore remainingAfterMeta remAfterDetails detTrunc opTrunc
  dsimp only
  split <;> dsimp only <;> omega

theorem createEntryCore_size_le (maxB : Nat) (lg : InternalLog)
    (sip : List Char) (ck : Option Nat) :
    (createEntryCore maxB lg sip ck).size_bytes ≤ maxB := by
  rw [createEntryCore_size_eq]
  have h1 : utf8Len (opTrunc maxB lg) ≤ min maxB 256 :=
    truncate_to_bytes_len_le _ _
  have hm1 : min maxB 256 ≤ maxB := Nat.min_le_left _ _
  have h2 : utf8Len (detTrunc maxB lg)
      ≤ min (maxB - utf8Len (opTrunc maxB lg)) 512 :=
    truncate_to_bytes_len_le _ _
  have hm2 : min (maxB - utf8Len (opTrunc maxB lg)) 512
      ≤ maxB - utf8Len (opTrunc maxB lg) := Nat.min_le_left _ _
  have h3 := collectMeta_used lg.metadata (remAfterDetails maxB lg)
  have hrem : remainingAfterMeta maxB lg
      = remAfterDetails maxB lg
        - (collectMeta lg.metadata (remAfterDetails maxB lg)).2.1 := h3.2
  have hrd : remAfterDetails maxB lg
      = maxB - utf8Len (opTrunc maxB lg) - utf8Len (detTrunc maxB lg) := rfl
  split
  · omega
  · have h4 : utf8Len (truncate_to_bytes sip
        (min (remainingAfterMeta maxB lg) 128))
        ≤ min (remainingAfterMeta maxB lg) 128 :=
      truncate_to_bytes_len_le _ _
    have hm4 : min (remainingAfterMeta maxB lg) 128
        ≤ remainingAfterMeta maxB lg := Nat.min_le_left _ _
    omega

/-! ## Claim theorems -/
/-- Claim C1: for every logger configuration and every sequence of log
calls, every entry stored in the buffer (as returned by `get_all`) has
`size_bytes` at most the logger's configured `max_entry_bytes`. -/
theorem stored_size_bounded (m b : Nat) (is : List LogInput)
    (e : ForensicEntry)
    (he : e ∈ ((RingBufferLogger.new m b).logMany is).get_all) :
    e.size_bytes ≤ ((RingBufferLogger.new m b).logMany is).max_entry_bytes := by
  have h := reach_inv m b is
  have hga : ((RingBufferLogger.new m b).logMany is).get_all
      = ((is.map (mkEntry b)).drop (is.length - Nat.max m 1)).reverse := by
    show (((RingBufferLogger.new m b).logMany is).buffer.iter).reverse = _
    rw [h.wf.iter_eq]
  rw [hga, List.mem_reverse] at he
  have he2 : e ∈ is.map (mkEntry b) := List.mem_of_mem_drop he
  obtain ⟨i, _, hei⟩ := List.mem_map.mp he2
  have hb : ((RingBufferLogger.new m b).logMany is).max_entry_bytes = b := by
    rw [logMany_max_entry_bytes]
    rfl
  rw [hb, ← hei]
  exact createEntryCore_size_le b i.log i.source_ip i.clock

theorem stored_size_bounded_witness :
    hugeEntry ∈ ((RingBufferLogger.new 100 128).logMany [hugeInput]).get_all
      ∧ hugeEntry.size_bytes
        ≤ ((RingBufferLogger.new 100 128).logMany
            [hugeInput]).max_entry_bytes :=
  ⟨by decide, stored_size_bounded 100 128 [hugeInput] hugeEntry (by decide)⟩

/-- Claim C2: for every requested capacity `m` (bounded to
`C = max m 1`) and every sequence of `M` log calls on a fresh logger,
`len = min M C` and `eviction_count = M - C` (truncated subtraction,
i.e. `max 0 (M - C)`). -/
theorem log_len_eviction_spec (m b : Nat) (is : List LogInput) :
    ((RingBufferLogger.new m b).logMany is).len
        = min is.length (Nat.max m 1)
      ∧ ((RingBufferLogger.new m b).logMany is).eviction_count
        = is.length - Nat.max m 1 := by
  have h := reach_inv m b is
  have hc2 : ((RingBufferLogger.new m b).logMany is).max_entries
      = Nat.max m 1 := by
    rw [logMany_max_entries]
    rfl
  constructor
  · show ((RingBufferLogger.new m b).logMany is).buffer.len = _
    rw [h.wf.len_eq, h.len_min, hc2]
  · rw [h.evict_eq, hc2]

/-- Claim C5: `get_recent k` is the first `k` elements of `get_all`
(for every buffer state and every `k ≤ len`), and on every reachable
state both enumerate the retained entries strictly newest-to-oldest,
i.e. `get_all` is the reverse of the insertion-ordered suffix of the
pushed entries that fits the capacity. -/
theorem query_order_spec :
    (∀ (l : RingBufferLogger) (k : Nat), k ≤ l.len →
        l.get_recent k = (l.get_all).take k)
      ∧ (∀ (m b : Nat) (is : List LogInput),
          ((RingBufferLogger.new m b).logMany is).get_all
            = ((is.map (mkEntry b)).drop
                (is.length - Nat.max m 1)).reverse) := by
  constructor
  · intro l k _
    rfl
  · intro m b is
    have h := reach_inv m b is
    show (((RingBufferLogger.new m b).logMany is).buffer.iter).reverse = _
    rw [h.wf.iter_eq]

theorem query_order_spec_witness :
    1 ≤ ((RingBufferLogger.new 2 64).logMany [sampleInput]).len
      ∧ ((RingBufferLogger.new 2 64).logMany [sampleInput]).get_recent 1
        = (((RingBufferLogger.new 2 64).logMany
            [sampleInput]).get_all).take 1 :=
  ⟨by decide, query_order_spec.1 _ 1 (by decide)⟩

/-- Claim C4 (divergence witness): the source's `get_filtered` iterates
without the `rev()` used by `get_recent`/`get_all`, so it returns
matching entries oldest-first — the reverse of `get_all`'s newest-first
order — contradicting the claimed (and spec-mandated) order.  Concretely,
after logging entries A then B, `get_filtered (fun _ => true)` is
`[A, B]` = `get_all.reverse`, which differs from
`get_all.filter (fun _ => true) = [B, A]`. -/
theorem get_filtered_order_divergence :
    ((RingBufferLogger.new 3 1024).logMany
        [orderInputA, orderInputB]).get_filtered (fun _ => true)
      = (((RingBufferLogger.new 3 1024).logMany
          [orderInputA, orderInputB]).get_all).reverse
    ∧ ((RingBufferLogger.new 3 1024).logMany
        [orderInputA, orderInputB]).get_filtered (fun _ => true)
      ≠ (((RingBufferLogger.new 3 1024).logMany
          [orderInputA, orderInputB]).get_all).filter (fun _ => true) := by
  decide

/-- Claim C6: the stored metadata is an in-order initial segment of the
record's metadata pairs (`map fst` equals a `take` of the original keys
— keys verbatim, no pair skipped), each stored value is
`truncate_to_bytes` of the original value at budget
`min (remaining - key_length) 128` for the remaining budget `ri` at that
step, and every stored value is at most 128 bytes. -/
theorem metadata_prefix_spec (l : RingBufferLogger) (lg : InternalLog)
    (sip : List Char) (ck : Option Nat) :
    ((l.create_entry lg sip ck).metadata).map Prod.fst
        = (lg.metadata.map Prod.fst).take
            ((l.create_entry lg sip ck).metadata).length
      ∧ (∀ i : Nat, i < ((l.create_entry lg sip ck).metadata).length →
          ∃ ri, ((l.create_entry lg sip ck).metadata)[i]?
            = (lg.metadata[i]?).map
                (fun kv => (kv.1, truncate_to_bytes kv.2
                  (min (ri - utf8Len kv.1) 128))))
      ∧ (∀ pair ∈ (l.create_entry lg sip ck).metadata,
          utf8Len pair.2 ≤ 128) := by
  have hm : (l.create_entry lg sip ck).metadata
      = (collectMeta lg.metadata (remAfterDetails l.max_entry_bytes lg)).1 :=
    createEntryCore_metadata l.max_entry_bytes lg sip ck
  rw [hm]
  exact ⟨collectMeta_keys lg.metadata _,
    fun i hi => collectMeta_get lg.metadata _ i hi,
    collectMeta_val_le lg.metadata _⟩

theorem metadata_prefix_spec_witness :
    0 < (((RingBufferLogger.new 4 64).create_entry sampleLog
        "ip".toList (some 3)).metadata).length
      ∧ ∃ ri, (((RingBufferLogger.new 4 64).create_entry sampleLog
          "ip".toList (some 3)).metadata)[0]?
        = (sampleLog.metadata[0]?).map
            (fun kv => (kv.1, truncate_to_bytes kv.2
              (min (ri - utf8Len kv.1) 128))) :=
  ⟨by decide,
    (metadata_prefix_spec (RingBufferLogger.new 4 64) sampleLog
      "ip".toList (some 3)).2.1 0 (by decide)⟩

/-- Claim C7: every operation of the embedding is a total function (all
definitions above are structurally recursive, so construction, push and
the queries are defined for every input, including empty strings, pure
multi-byte strings, zero budgets, exact-boundary budgets, and
capacity-one buffers), the truncation output always fits its budget and
an exactly-fitting input is returned unchanged with no marker, and on
every reachable logger state the quantities the Rust code indexes with
are in range: capacity is at least 1 (so the `%` by capacity and the
slot accesses in `push`/`iter` cannot fault), `tail` and `head` are
below capacity, and `len` never exceeds capacity. -/
theorem totality_no_panic_spec :
    (∀ (s : List Char) (B : Nat),
        utf8Len (truncate_to_bytes s B) ≤ B
          ∧ truncate_to_bytes s (utf8Len s) = s)
      ∧ (∀ (m b : Nat) (is : List LogInput),
          1 ≤ ((RingBufferLogger.new m b).logMany is).buffer.entries.length
          ∧ ((RingBufferLogger.new m b).logMany is).buffer.tail
              < ((RingBufferLogger.new m b).logMany is).buffer.entries.length
          ∧ ((RingBufferLogger.new m b).logMany is).buffer.head
              < ((RingBufferLogger.new m b).logMany is).buffer.entries.length
          ∧ ((RingBufferLogger.new m b).logMany is).buffer.len
              ≤ ((RingBufferLogger.new m b).logMany
                  is).buffer.entries.length) := by
  constructor
  · intro s B
    exact ⟨truncate_to_bytes_len_le s B,
      truncate_to_bytes_of_fits (Nat.le_refl _)⟩
  · intro m b is
    have h := reach_inv m b is
    have hcp := h.wf.cap_pos
    refine ⟨hcp, ?_, h.wf.head_lt, ?_⟩
    · rw [h.wf.tail_eq]
      exact Nat.mod_lt _ (by omega)
    · rw [h.wf.len_eq]
      exact h.wf.len_le

/-- Claim C8 (counterexample to the claim as stated): `size_bytes` does
not count the stored `code` field's bytes, so for an entry with a
nonempty code it differs from the sum over code, operation, details,
source identifier and metadata. -/
theorem size_bytes_counterexample :
    ((RingBufferLogger.new 10 100).create_entry
        ⟨"E1".toList, "op".toList, "de".toList, [], false⟩
        "s".toList (some 5)).size_bytes
      ≠ claimedEntrySize ((RingBufferLogger.new 10 100).create_entry
        ⟨"E1".toList, "op".toList, "de".toList, [], false⟩
        "s".toList (some 5)) := by
  decide

/-- Claim C8 (amended): `size_bytes` equals the sum of the byte lengths
of the stored operation, details, and metadata keys and values, plus
the stored source identifier's bytes when any budget remained at the
source-identifier step; the `code` field's bytes are never counted, and
when the budget was exhausted the stored `"[TRUNCATED]"` placeholder
contributes nothing. -/
theorem size_bytes_accounting (l : RingBufferLogger) (lg : InternalLog)
    (sip : List Char) (ck : Option Nat) :
    (l.create_entry lg sip ck).size_bytes
      = utf8Len (l.create_entry lg sip ck).operation
        + utf8Len (l.create_entry lg sip ck).details
        + metaBytes (l.create_entry lg sip ck).metadata
        + (if remainingAfterMeta l.max_entry_bytes lg = 0 then 0
           else utf8Len (l.create_entry lg sip ck).source_ip) := by
  have hop : (l.create_entry lg sip ck).operation
      = opTrunc l.max_entry_bytes lg :=
    createEntryCore_operation l.max_entry_bytes lg sip ck
  have hdet : (l.create_entry lg sip ck).details
      = detTrunc l.max_entry_bytes lg :=
    createEntryCore_details l.max_entry_bytes lg sip ck
  have hmeta : (l.create_entry lg sip ck).metadata
      = (collectMeta lg.metadata (remAfterDetails l.max_entry_bytes lg)).1 :=
    createEntryCore_metadata l.max_entry_bytes lg sip ck
  have hsip : (l.create_entry lg sip ck).source_ip
      = if remainingAfterMeta l.max_entry_bytes lg = 0 then truncMarker
        else truncate_to_bytes sip
          (min (remainingAfterMeta l.max_entry_bytes lg) 128) :=
    createEntryCore_source_ip l.max_entry_bytes lg sip ck
  have hsize : (l.create_entry lg sip ck).size_bytes
      = utf8Len (opTrunc l.max_entry_bytes lg)
        + utf8Len (detTrunc l.max_entry_bytes lg)
        + (collectMeta lg.metadata (remAfterDetails l.max_entry_bytes lg)).2.1
        + (if remainingAfterMeta l.max_entry_bytes lg = 0 then 0
           else utf8Len (truncate_to_bytes sip
             (min (remainingAfterMeta l.max_entry_bytes lg) 128))) :=
    createEntryCore_size_eq l.max_entry_bytes lg sip ck
  have hmb := collectMeta_size_eq lg.metadata
    (remAfterDetails l.max_entry_bytes lg)
  rw [hsize, hop, hdet, hmeta, hsip, ← hmb]
  by_cases h0 : remainingAfterMeta l.max_entry_bytes lg = 0
  · rw [if_pos h0, if_pos h0]
  · rw [if_neg h0, if_neg h0, if_neg h0]

/-- Claim C9: `clear` empties the storage — `len = 0`, every slot empty,
`head = tail = 0` — while the eviction counter, the capacity, and
`max_entry_bytes` keep their previous values. -/
theorem clear_spec (l : RingBufferLogger) :
    (l.clear).len = 0
      ∧ (l.clear).buffer.head = 0
      ∧ (l.clear).buffer.tail = 0
      ∧ (∀ j : Nat, ((l.clear).buffer.entries).getD j none = none)
      ∧ (l.clear).eviction_count = l.eviction_count
      ∧ (l.clear).capacity = l.capacity
      ∧ (l.clear).max_entry_bytes = l.max_entry_bytes := by
  refine ⟨rfl, rfl, rfl, ?_, rfl, rfl, rfl⟩
  intro j
  exact getD_map_const l.buffer.entries j none

/-- Claim C10: when the system clock reads before the Unix epoch
(`duration_since(UNIX_EPOCH)` returns `Err`, modelled by `clock = none`),
the constructed entry records timestamp `0`; entry construction (hence
`log`) is a total function of the clock reading, so the call cannot
fail. -/
theorem pre_epoch_timestamp_spec (l : RingBufferLogger) (lg : InternalLog)
    (sip : List Char) :
    (l.create_entry lg sip none).timestamp = 0 := rfl
